import Mathlib

/-!
Shallow embedding of the `hrtree` Go repository (a Hilbert R-tree) and
verification of its natural-language specification.

Conventions of the embedding:
* `float64` coordinates are modelled as rationals (`ℚ`); the program only
  adds, subtracts, multiplies, divides and compares coordinates, and every
  claim under scrutiny concerns the comparison structure, which agrees with
  the rational order on ordinary (non-NaN) values.
* `uint64` Hilbert values are modelled as `ℕ`; the program only compares
  them, never overflows them by arithmetic.
* Go pointers (`*node`) are modelled as indices (`NodeId`) into an arena
  (the `nodes` list of the tree), following the cyclic
  parent/left/right/child pointer graph of the source.
* Code that can panic (nil dereference, contract violations such as
  inserting into a full node) is modelled in the `Option` monad; `none`
  models a panic.
* The external Hilbert encoder (`github.com/jtejido/hilbert`, not part of
  this repository) is passed in as a function argument, as the
  specification treats it: an injected deterministic pure function.
-/

namespace Hrtree

/-- `Dim` from the source: the fixed spatial dimension, 2. -/
def Dim : Nat := 2

/-- `Point` from geom.go: a `[2]float64`, modelled with rational coordinates. -/
structure Point where
  x : ℚ
  y : ℚ
deriving Repr, DecidableEq

/-- Index a `Point` by axis, mirroring `p[i]` on the Go array. -/
def Point.nth (p : Point) : Fin 2 → ℚ
  | 0 => p.x
  | 1 => p.y

/-- `Rect` from geom.go: lower and upper corner points. -/
structure Rect where
  lower : Point
  upper : Point
deriving Repr, DecidableEq

/-- The Go zero value of `Rect` (all coordinates zero), produced by `var bb Rect`. -/
def Rect.zero : Rect := ⟨⟨0, 0⟩, ⟨0, 0⟩⟩

instance : Inhabited Rect := ⟨Rect.zero⟩

/-- `Rect.enlarge` from geom.go: grow `r1` to the smallest rectangle
containing both `r1` and `r2` (per-axis min of lowers, max of uppers). -/
def Rect.enlarge (r1 r2 : Rect) : Rect :=
  { lower := ⟨if r1.lower.x > r2.lower.x then r2.lower.x else r1.lower.x,
              if r1.lower.y > r2.lower.y then r2.lower.y else r1.lower.y⟩,
    upper := ⟨if r1.upper.x < r2.upper.x then r2.upper.x else r1.upper.x,
              if r1.upper.y < r2.upper.y then r2.upper.y else r1.upper.y⟩ }

/-- `Rect.contains` from geom.go: `r2` lies inside `r1`;
returns false as soon as `a1 > a2 || b2 > b1` on some axis. -/
def Rect.contains (r1 r2 : Rect) : Bool :=
  !(r1.lower.x > r2.lower.x || r2.upper.x > r1.upper.x) &&
  !(r1.lower.y > r2.lower.y || r2.upper.y > r1.upper.y)

/-- `Rect.equal` from geom.go, lines 185-194, embedded exactly as written:
on each axis it returns `false` only when `a1 != a2 && b2 != b1`, i.e. when
BOTH the lower and the upper coordinate differ on that axis. -/
def Rect.equal (r1 r2 : Rect) : Bool :=
  !(r1.lower.x ≠ r2.lower.x && r2.upper.x ≠ r1.upper.x) &&
  !(r1.lower.y ≠ r2.lower.y && r2.upper.y ≠ r1.upper.y)

/-- `intersect` from geom.go, lines 215-221: the loop
`for i := 0; ok && i < Dim; i++ { ok = r1.lower[i] <= r2.upper[i] && r1.upper[i] >= r2.lower[i] }`
unrolled for `Dim = 2` (short-circuit conjunction of the per-axis tests). -/
def intersect (r1 r2 : Rect) : Bool :=
  (r1.lower.x ≤ r2.upper.x && r1.upper.x ≥ r2.lower.x) &&
  (r1.lower.y ≤ r2.upper.y && r1.upper.y ≥ r2.lower.y)

/-- `Rect.ToCenter` from geom.go: per-axis midpoint `(lower[i]+upper[i])/2`. -/
def Rect.ToCenter (r : Rect) : Point :=
  ⟨(r.lower.x + r.upper.x) / 2, (r.lower.y + r.upper.y) / 2⟩

/-- Go's conversion `uint64(f)` of a non-negative `float64`:
truncation toward zero, i.e. the floor for non-negative values.
The specification restricts coordinates to non-negative integers. -/
def toU64 (q : ℚ) : Nat := q.floor.toNat

/-- `math.MaxFloat64`, exactly `(2 - 2^-52) * 2^1023 = 2^1024 - 2^971`. -/
def maxFloat : ℚ := 2 ^ 1024 - 2 ^ 971

/-- `Point.minDist` from geom.go: squared distance from a point to a
rectangle (zero inside). -/
def Point.minDist (p : Point) (r : Rect) : ℚ :=
  (if p.x < r.lower.x then (p.x - r.lower.x) * (p.x - r.lower.x)
   else if p.x > r.upper.x then (p.x - r.upper.x) * (p.x - r.upper.x) else 0) +
  (if p.y < r.lower.y then (p.y - r.lower.y) * (p.y - r.lower.y)
   else if p.y > r.upper.y then (p.y - r.upper.y) * (p.y - r.upper.y) else 0)

/-- The `rm` helper of `Point.minMaxDist` on one axis. -/
def minMaxRm (pk lok hik : ℚ) : ℚ := if pk ≤ (lok + hik) / 2 then lok else hik

/-- The `rM` helper of `Point.minMaxDist` on one axis. -/
def minMaxRM (pk lok hik : ℚ) : ℚ := if pk ≥ (lok + hik) / 2 then lok else hik

/-- `Point.minMaxDist` from geom.go, per Roussopoulos-Kelley-Vincent:
`min_k (S - |pk - rMk|^2 + |pk - rmk|^2)` where `S = Σ |pi - rMi|^2`;
the final minimum starts from `math.MaxFloat64` as in the source. -/
def Point.minMaxDist (p : Point) (r : Rect) : ℚ :=
  let dMx := p.x - minMaxRM p.x r.lower.x r.upper.x
  let dMy := p.y - minMaxRM p.y r.lower.y r.upper.y
  let s := dMx * dMx + dMy * dMy
  let dx := p.x - minMaxRm p.x r.lower.x r.upper.x
  let dy := p.y - minMaxRm p.y r.lower.y r.upper.y
  let c0 := s - dMx * dMx + dx * dx
  let c1 := s - dMy * dMy + dy * dy
  let m0 := if c0 < maxFloat then c0 else maxFloat
  if c1 < m0 then c1 else m0

/-- A user object stored in the tree (the `Spatial` interface): it reports
a bounding rectangle and a centre point; `oid` stands for the object's
identity (distinct Go values with possibly equal geometry). -/
structure Obj where
  oid : Nat
  bounds : Rect
  center : Point
deriving Repr, DecidableEq

/-- Node identifiers: indices into the tree's node arena, modelling `*node`. -/
abbrev NodeId := Nat

/-- `entry` from hrtree.go: a record shared between leaf entries
(`bb`, `obj`, `h` set) and internal entries (`node` set). `none` models a
nil Go pointer. -/
structure Entry where
  bb : Option Rect
  node : Option NodeId
  obj : Option Obj
  h : Nat
  leaf : Bool
deriving Repr, DecidableEq

/-- The Go zero value of `entry`. -/
instance : Inhabited Entry := ⟨⟨none, none, none, 0, false⟩⟩

/-- The loop of Go's `sort.Search`: binary search maintaining
`f` false on `[0,i)` and true on `[j,n)`, probing `h := (i+j)/2`.
The loop runs while `i < j`; since `j - i` shrinks on every iteration,
a countdown of `n + 1` steps never runs out (made structural so that the
function evaluates by kernel reduction). -/
def searchLoop (f : Nat → Bool) : Nat → Nat → Nat → Nat
  | i, _, 0 => i
  | i, j, countdown + 1 =>
    if i < j then
      if f ((i + j) / 2) then searchLoop f i ((i + j) / 2) countdown
      else searchLoop f ((i + j) / 2 + 1) j countdown
    else i

/-- Go's `sort.Search(n, f)`: smallest index in `[0, n]` at which `f`
becomes true, assuming `f` is monotone. -/
def sortSearch (n : Nat) (f : Nat → Bool) : Nat := searchLoop f 0 n (n + 1)

/-- `entryList.insert` from hrtree.go, lines 290-298:
`index := sort.Search(len, func(i) bool { return entries[i].h > el.h })`,
then append a zero entry, shift `entries[index:]` one slot right and place
`el` at `index`; returns the new list and the index. -/
def listInsert (l : List Entry) (el : Entry) : List Entry × Nat :=
  let index := sortSearch l.length (fun i => el.h < (l.getD i default).h)
  (l.take index ++ el :: l.drop index, index)

/-- `SiblingsNumber` from hrtree.go: cooperating-sibling window size. -/
def SiblingsNumber : Nat := 2

/-- `DefaultMinNodeEntries` from hrtree.go. -/
def DefaultMinNodeEntries : Nat := 20

/-- `DefaultMaxNodeEntries` from hrtree.go. -/
def DefaultMaxNodeEntries : Nat := 1000

/-- `node` from hrtree.go: the tree vertex. Pointer fields hold `NodeId`
indices into the tree's node arena; `none` is a nil pointer. -/
structure GNode where
  min : Nat
  max : Nat
  parent : Option NodeId
  left : Option NodeId
  right : Option NodeId
  leaf : Bool
  entries : List Entry
  lhv : Nat
  bb : Option Rect
deriving Repr, DecidableEq

/-- `newNode` from hrtree.go: fresh node with an empty entry list and Go
zero values everywhere else. -/
def newNode (min max : Nat) : GNode :=
  { min := min, max := max, parent := none, left := none, right := none,
    leaf := false, entries := [], lhv := 0, bb := none }

/-- `Rtree` from hrtree.go together with the node arena that realises the
Go heap of `*node` pointers. `root` is the id of the root node. -/
structure Rtree where
  MinChildren : Nat
  MaxChildren : Nat
  Bits : Int
  root : NodeId
  size : Int
  nodes : List GNode
deriving Repr, DecidableEq

/-- Dereference a node pointer; `none` models a dangling/nil dereference. -/
def getN (t : Rtree) (id : NodeId) : Option GNode := t.nodes[id]?

/-- Write back a node through its pointer. -/
def setN (t : Rtree) (id : NodeId) (n : GNode) : Rtree :=
  { t with nodes := t.nodes.set id n }

/-- In-place mutation of the node behind a pointer. -/
def modifyN (t : Rtree) (id : NodeId) (f : GNode → GNode) : Option Rtree := do
  let n ← getN t id
  some (setN t id (f n))

/-- Allocation of a fresh node (Go `newNode`/`&node{...}`). -/
def allocN (t : Rtree) (n : GNode) : NodeId × Rtree :=
  (t.nodes.length, { t with nodes := t.nodes ++ [n] })

/-- Total number of entries stored anywhere in the arena. -/
def totalEntries (t : Rtree) : Nat := (t.nodes.map (fun n => n.entries.length)).sum

/-- Fuel bound for the recursive traversals: any traversal of a sane tree
descends through at most `nodes` node frames and `totalEntries` entry
frames, so this bound is never exhausted on a well-formed tree. -/
def treeFuel (t : Rtree) : Nat := (t.nodes.length + 2) * (totalEntries t + 2)

/-- The loop body of `node.adjustLHV` from hrtree.go: note it only ever
raises the running value, starting from the node's CURRENT `lhv`
(the source never resets `lhv` before the loop). -/
def adjustLHVVal (lhv0 : Nat) (es : List Entry) : Nat :=
  es.foldl (fun acc en => if en.h > acc then en.h else acc) lhv0

/-- `node.adjustLHV` from hrtree.go, lines 90-96. -/
def adjustLHV (t : Rtree) (id : NodeId) : Option Rtree :=
  modifyN t id (fun n => { n with lhv := adjustLHVVal n.lhv n.entries })

/-- `entry.getMBR` from hrtree.go: a leaf entry's own `bb`, an internal
entry's child-node `bb`. The outer `Option` is the nil dereference of
`e.node`; the inner `Option` is the returned (possibly nil) `*Rect`. -/
def entryGetMBR (t : Rtree) (e : Entry) : Option (Option Rect) :=
  if e.leaf then some e.bb
  else do
    let cid ← e.node
    let c ← getN t cid
    some c.bb

/-- The fold of `node.adjustMBR`: start from the first MBR, `enlarge` with
the rest; an empty entry list leaves the Go zero `Rect`. -/
def adjustMBRVal (mbrs : List Rect) : Rect :=
  match mbrs with
  | [] => Rect.zero
  | r :: rest => rest.foldl Rect.enlarge r

/-- `node.adjustMBR` from hrtree.go, lines 98-110: every entry's MBR
pointer is dereferenced (a nil one panics), then the union is cached. -/
def adjustMBR (t : Rtree) (id : NodeId) : Option Rtree := do
  let n ← getN t id
  let ptrs ← n.entries.mapM (entryGetMBR t)
  let mbrs ← ptrs.mapM (fun x => x)
  some (setN t id { n with bb := some (adjustMBRVal mbrs) })

/-- `node.isOverflow` from hrtree.go, lines 112-114: `len(entries) == max`. -/
def isOverflow (n : GNode) : Bool := n.entries.length == n.max

/-- `node.isUnderflow` from hrtree.go, lines 116-118, embedded exactly as
written: it compares the entry count against `n.max`. -/
def isUnderflow (n : GNode) : Bool := n.entries.length < n.max

/-- The walk of `node.getSiblings`: keep following `right` while fewer
than `siblingsNum` nodes are collected; the countdown equals the number
of slots still available, so the recursion is structural. -/
def getSiblingsLoop (t : Rtree) (acc : List NodeId) (right : Option NodeId) :
    Nat → Option (List NodeId)
  | 0 => some acc
  | countdown + 1 =>
    match right with
    | none => some acc
    | some rid => do
        let r ← getN t rid
        getSiblingsLoop t (acc ++ [rid]) r.right countdown

/-- `node.getSiblings` from hrtree.go, lines 120-130. -/
def getSiblings (t : Rtree) (id : NodeId) (siblingsNum : Nat) : Option (List NodeId) := do
  let n ← getN t id
  getSiblingsLoop t [id] n.right (siblingsNum - 1)

/-- The scan of `node.removeLeaf`: `ind` is overwritten at EVERY matching
position, so it ends at the last match; each entry's `obj` pointer is
dereferenced (`en.obj.Bounds()`), a nil one panics. -/
def removeIndLoop (r : Rect) : List Entry → Int → Int → Option Int
  | [], _, ind => some ind
  | en :: rest, i, ind => do
      let ob ← en.obj
      removeIndLoop r rest (i + 1) (if Rect.equal ob.bounds r then i else ind)

/-- The pure core of `node.removeLeaf` from hrtree.go, lines 132-152:
scan for the match index, return `false` and the unchanged list if none,
otherwise erase the found index. -/
def removeLeafCore (es : List Entry) (r : Rect) : Option (Bool × List Entry) := do
  let ind ← removeIndLoop r es 0 (-1)
  if ind < 0 then some (false, es)
  else some (true, es.eraseIdx ind.toNat)

/-- `node.removeLeaf` from hrtree.go: panics (`none`) on a non-leaf node. -/
def removeLeaf (t : Rtree) (id : NodeId) (obj : Obj) : Option (Bool × Rtree) := do
  let n ← getN t id
  if !n.leaf then none
  else do
    let (ok, es2) ← removeLeafCore n.entries obj.bounds
    some (ok, setN t id { n with entries := es2 })

/-- The scan of `node.removeNonLeaf`: last index whose entry's child
pointer equals the target (Go pointer equality becomes id equality). -/
def removeNonLeafInd (target : NodeId) : List Entry → Int → Int → Int
  | [], _, ind => ind
  | en :: rest, i, ind =>
      removeNonLeafInd target rest (i + 1) (if en.node == some target then i else ind)

/-- `node.removeNonLeaf` from hrtree.go, lines 154-174. -/
def removeNonLeaf (t : Rtree) (id : NodeId) (target : NodeId) : Option (Bool × Rtree) := do
  let n ← getN t id
  if n.leaf then none
  else
    let ind := removeNonLeafInd target n.entries 0 (-1)
    if ind < 0 then some (false, t)
    else some (true, setN t id { n with entries := n.entries.eraseIdx ind.toNat })

/-- `node.insertLeaf` from hrtree.go, lines 176-187: panics on a non-leaf
or overflowing node, otherwise inserts into the ordered entry list. -/
def insertLeaf (t : Rtree) (id : NodeId) (e : Entry) : Option Rtree := do
  let n ← getN t id
  if !n.leaf then none
  else if isOverflow n then none
  else some (setN t id { n with entries := (listInsert n.entries e).1 })

/-- `node.insertNonLeaf` from hrtree.go, lines 189-233: ordered insert,
then set the child's parent pointer and splice the child into the sibling
chain between the nodes held by the neighbouring entries. -/
def insertNonLeaf (t : Rtree) (id : NodeId) (e : Entry) : Option Rtree := do
  let n ← getN t id
  if n.leaf then none
  else if isOverflow n then none
  else do
    let (es2, it) := listInsert n.entries e
    let t := setN t id { n with entries := es2 }
    let cid ← e.node
    let t ← modifyN t cid (fun c => { c with parent := some id })
    let prevSib : Option NodeId :=
      if es2.getD it default ≠ es2.getD 0 default then (es2.getD (it - 1) default).node
      else none
    let t ← modifyN t cid (fun c => { c with left := prevSib })
    let t ← (match prevSib with
             | some p => modifyN t p (fun pn => { pn with right := some cid })
             | none => some t)
    let aux := es2.length - 1
    let nextSib : Option NodeId :=
      if it ≠ aux then (es2.getD (it + 1) default).node else none
    let t ← modifyN t cid (fun c => { c with right := nextSib })
    let t ← (match nextSib with
             | some q => modifyN t q (fun qn => { qn with left := some cid })
             | none => some t)
    some t

/-- `node.reset` from hrtree.go, lines 235-240: fresh entry list, nil
bounding box, zero largest-Hilbert-value; everything else is kept. -/
def reset (t : Rtree) (id : NodeId) : Option Rtree :=
  modifyN t id (fun n => { n with entries := [], bb := none, lhv := 0 })

/-- The scan of `chooseNode` over an internal node's entries: return the
first non-leaf entry whose child has `lhv ≥ h` (to descend into), else
remember it as `last`; leaf entries are skipped. -/
def chooseNodeScan (t : Rtree) (h : Nat) : List Entry → Entry → Option (Sum NodeId Entry)
  | [], last => some (Sum.inr last)
  | en :: rest, last =>
      if en.leaf then chooseNodeScan t h rest last
      else do
        let cid ← en.node
        let c ← getN t cid
        if c.lhv ≥ h then some (Sum.inl cid)
        else chooseNodeScan t h rest en

/-- `Rtree.chooseNode` from hrtree.go, lines 360-380: descend to the leaf
in which a new entry with Hilbert value `h` belongs. `last` starts as the
Go zero entry, whose nil child panics if the node has no usable entry. -/
def chooseNode (t : Rtree) : Nat → NodeId → Nat → Option NodeId
  | 0, _, _ => none
  | fuel + 1, id, h => do
      let n ← getN t id
      if n.leaf then some id
      else
        match ← chooseNodeScan t h n.entries default with
        | Sum.inl cid => chooseNode t fuel cid h
        | Sum.inr last => do
            let lid ← last.node
            chooseNode t fuel lid h

/-- The inner loop of `redistributeEntries`: feed entries (a suffix of the
pool, starting at index `i`) into one sibling until the batch is full;
returns the updated tree, the new value of `j` if the loop broke (batch
filled), and the running `currentBatch` counter. -/
def redistInner (batchSize : Nat) : List Entry → Nat → Nat → NodeId → Rtree →
    Option (Rtree × Option Nat × Nat)
  | [], _i, cur, _sid, t => some (t, none, cur)
  | ee :: rest, i, cur, sid, t => do
      let t ← if ee.leaf then insertLeaf t sid ee else insertNonLeaf t sid ee
      let cur := cur + 1
      if cur == batchSize then some (t, some (i + 1), 0)
      else redistInner batchSize rest (i + 1) cur sid t

/-- The outer loop of `redistributeEntries`: one batch per sibling, then
recompute that sibling's `lhv` and MBR; `j` and `currentBatch` persist
across siblings exactly as the Go locals do. -/
def redistOuter (es : List Entry) (batchSize : Nat) : List NodeId → Nat → Nat → Rtree →
    Option Rtree
  | [], _j, _cur, t => some t
  | sid :: rest, j, cur, t => do
      let (t, brk, cur) ← redistInner batchSize (es.drop j) j cur sid t
      let j := match brk with | some j2 => j2 | none => j
      let t ← adjustLHV t sid
      let t ← adjustMBR t sid
      redistOuter es batchSize rest j cur t

/-- `redistributeEntries` from hrtree.go, lines 599-628. The Go batch size
is `int(math.Ceil(float64(len) / float64(count)))`; for a nonempty cohort
the float computation is exact and equals the `Nat` ceiling division used
here; an empty cohort never reads the value (the loop body is empty). -/
def redistributeEntries (t : Rtree) (es : List Entry) (siblings : List NodeId) :
    Option Rtree :=
  let batchSize :=
    if siblings.length == 0 then 0
    else (es.length + siblings.length - 1) / siblings.length
  redistOuter es batchSize siblings 0 0 t

/-- The pooling loop shared by `handleOverflow` and `handleUnderflow`:
insert every cohort node's entries into the ordered pool, reset the node,
and remember the position of the target node (`targetPos`). -/
def poolLoop (nid : NodeId) : List NodeId → Nat → List Entry → Nat → Rtree →
    Option (List Entry × Nat × Rtree)
  | [], _, entries, targetPos, t => some (entries, targetPos, t)
  | id :: rest, i, entries, targetPos, t => do
      let nd ← getN t id
      let entries := nd.entries.foldl (fun acc e => (listInsert acc e).1) entries
      let t ← reset t id
      poolLoop nid rest (i + 1) entries (if id == nid then i else targetPos) t

/-- `handleOverflow` from hrtree.go, lines 506-559: pool the target and
its right siblings plus the new entry; if the pool exceeds the cohort's
capacity, allocate a split node, splice it to the left of the target and
into the cohort at the target's position; redistribute. -/
def handleOverflow (t : Rtree) (nid : NodeId) (e : Entry) :
    Option (Option NodeId × List NodeId × Rtree) := do
  let n0 ← getN t nid
  let mn := n0.min
  let mx := n0.max
  let nodes ← getSiblings t nid SiblingsNumber
  let entries := (listInsert [] e).1
  let (entries, targetPos, t) ← poolLoop nid nodes 0 entries 0 t
  if entries.length > nodes.length * mx then do
    let (nnId, t) := allocN t { newNode mn mx with leaf := e.leaf }
    let nCur ← getN t nid
    let prevSib := nCur.left
    let t ← modifyN t nnId (fun nn => { nn with left := prevSib })
    let t ← (match prevSib with
             | some p => modifyN t p (fun pn => { pn with right := some nnId })
             | none => some t)
    let t ← modifyN t nnId (fun nn => { nn with right := some nid })
    let t ← modifyN t nid (fun n => { n with left := some nnId })
    let nodes := nodes.take targetPos ++ nnId :: nodes.drop targetPos
    let t ← redistributeEntries t entries nodes
    some (some nnId, nodes, t)
  else do
    let t ← redistributeEntries t entries nodes
    some (none, nodes, t)

/-- `Rtree.handleUnderflow` from hrtree.go, lines 561-597: pool the target
and up to `SiblingsNumber` right siblings; if the pool cannot keep every
cohort node at `MinChildren` and the target is not the root, unlink the
leftmost cohort node (the target itself) from the sibling chain and drop
it from the cohort; redistribute. -/
def handleUnderflow (t : Rtree) (targetId : NodeId) :
    Option (Option NodeId × List NodeId × Rtree) := do
  let nodes ← getSiblings t targetId (SiblingsNumber + 1)
  let (entries, _, t) ← poolLoop targetId nodes 0 [] 0 t
  let targetNode ← getN t targetId
  if entries.length < nodes.length * t.MinChildren && targetNode.parent.isSome then do
    let nn := nodes.getD 0 0
    let nnNode ← getN t nn
    let prevSib := nnNode.left
    let nextSib := nnNode.right
    let t ← (match prevSib with
             | some p => modifyN t p (fun pn => { pn with right := nextSib })
             | none => some t)
    let t ← (match nextSib with
             | some q => modifyN t q (fun qn => { qn with left := prevSib })
             | none => some t)
    let nodes := nodes.drop 1
    let t ← redistributeEntries t entries nodes
    some (some nn, nodes, t)
  else do
    let t ← redistributeEntries t entries nodes
    some (none, nodes, t)

/-- The `for _, node := range s { node.parent.adjustLHV(); node.parent.adjustMBR() }`
loops of both adjust-tree functions; a nil parent pointer panics. -/
def adjustParents (t : Rtree) : List NodeId → Option Rtree
  | [] => some t
  | id :: rest => do
      let nd ← getN t id
      let p ← nd.parent
      let t ← adjustLHV t p
      let t ← adjustMBR t p
      adjustParents t rest

/-- `Rtree.adjustTreeForInsert` from hrtree.go, lines 383-438, as a
recursion over the ascent loop. The Go locals `pp` and `newSiblings` are
declared OUTSIDE the loop and persist across iterations (in particular a
stale `pp` is re-read when a later iteration takes the non-overflow
branch); they are threaded through unchanged to mirror that. -/
def adjustInsertLoop (t : Rtree) :
    Nat → NodeId → NodeId → Option NodeId → List NodeId → Option NodeId → List NodeId →
    Option (NodeId × Rtree)
  | 0, _, _, _, _, _, _ => none
  | fuel + 1, newRoot, n, nn, s, pp, newSiblings => do
      let nd ← getN t n
      match nd.parent with
      | none =>
          (match nn with
           | some nnId => do
               let (r2, t) := allocN t (newNode t.MinChildren t.MaxChildren)
               let t ← insertNonLeaf t r2 { (default : Entry) with node := some n }
               let t ← insertNonLeaf t r2 { (default : Entry) with node := some nnId }
               let t ← adjustLHV t r2
               let t ← adjustMBR t r2
               some (r2, t)
           | none => do
               let t ← adjustLHV t newRoot
               let t ← adjustMBR t newRoot
               some (newRoot, t))
      | some np => do
          let (t, pp, newSiblings) ←
            (match nn with
             | some nnId => do
                 let enn : Entry := { (default : Entry) with node := some nnId }
                 let npNode ← getN t np
                 if !(isOverflow npNode) then do
                   let t ← insertNonLeaf t np enn
                   let t ← adjustLHV t np
                   let t ← adjustMBR t np
                   some (t, pp, newSiblings ++ [np])
                 else do
                   let (pp2, ns2, t) ← handleOverflow t np enn
                   some (t, pp2, ns2)
             | none => some (t, pp, newSiblings ++ [np]))
          let t ← adjustParents t s
          adjustInsertLoop t fuel newRoot np pp newSiblings pp newSiblings

/-- `Rtree.insert` from hrtree.go, lines 338-358. -/
def insertEntry (t : Rtree) (e : Entry) : Option Rtree := do
  let leafId ← chooseNode t (t.nodes.length + 1) t.root e.h
  let leafNode ← getN t leafId
  let (split, siblings, t) ←
    if !(isOverflow leafNode) then do
      let t ← insertLeaf t leafId e
      let t ← adjustLHV t leafId
      let t ← adjustMBR t leafId
      some ((none : Option NodeId), [leafId], t)
    else handleOverflow t leafId e
  let (newRoot, t) ← adjustInsertLoop t (t.nodes.length + 2) t.root leafId split siblings none []
  some { t with root := newRoot }

/-- `Rtree.Insert` from hrtree.go, lines 326-336: the Hilbert value is
computed by the injected oracle from the `uint64`-cast centre coordinates;
the new leaf entry carries the object's bounds, the object and `h`. -/
def Insert (encode : Nat → Nat → Nat) (t : Rtree) (obj : Obj) : Option Rtree := do
  let p := obj.center
  let hv := encode (toU64 p.x) (toU64 p.y)
  let e : Entry := ⟨some obj.bounds, none, some obj, hv, true⟩
  let t ← insertEntry t e
  some { t with size := t.size + 1 }

/-- The `for en in data: n.insertLeaf(en)` loop of the root collapse. -/
def insertAllLeaf (t : Rtree) (id : NodeId) : List Entry → Option Rtree
  | [] => some t
  | e :: rest => do
      let t ← insertLeaf t id e
      insertAllLeaf t id rest

/-- The `for en in data: n.insertNonLeaf(en)` loop of the root collapse. -/
def insertAllNonLeaf (t : Rtree) (id : NodeId) : List Entry → Option Rtree
  | [] => some t
  | e :: rest => do
      let t ← insertNonLeaf t id e
      insertAllNonLeaf t id rest

/-- `Rtree.adjustTreeForRemove` from hrtree.go, lines 441-504, as a
recursion over the ascent loop; `newSiblings` persists across iterations,
`dpParent` is re-declared nil in every iteration, and the root-collapse
branch runs when the root holds exactly one internal entry. -/
def adjustRemoveLoop (t : Rtree) :
    Nat → NodeId → Option NodeId → List NodeId → List NodeId → Option Rtree
  | 0, _, _, _, _ => none
  | fuel + 1, n, nn, s, newSiblings => do
      let nd ← getN t n
      match nd.parent with
      | none => do
          let t ←
            if nd.entries.length == 1 && !nd.leaf then do
              let me ← (nd.entries.getD 0 default).node
              let meNode ← getN t me
              if meNode.leaf then do
                let t := setN t n { nd with leaf := true }
                let t ← reset t n
                insertAllLeaf t n meNode.entries
              else do
                let t ← reset t n
                insertAllNonLeaf t n meNode.entries
            else some t
          let t ← adjustLHV t n
          let t ← adjustMBR t n
          some t
      | some np => do
          let (t, dpParent, newSiblings) ←
            (match nn with
             | some nnId => do
                 let nnNode ← getN t nnId
                 let dnP ← nnNode.parent
                 let (_, t) ← removeNonLeaf t dnP nnId
                 let dnNode ← getN t dnP
                 if dnNode.entries.length < t.MinChildren then do
                   let (dp, ns2, t) ← handleUnderflow t dnP
                   some (t, dp, ns2)
                 else
                   some (t, (none : Option NodeId), newSiblings ++ [dnP])
             | none => some (t, (none : Option NodeId), newSiblings))
          let newSiblings := newSiblings ++ [np]
          let t ← adjustParents t s
          adjustRemoveLoop t fuel np dpParent newSiblings newSiblings

/-- The match scan of `findLeaf` inside a candidate leaf: return on the
first entry whose stored rectangle `equal`s the query bounds. -/
def findLeafScanMatch (r : Rect) : List Entry → Option Bool
  | [] => some false
  | en :: rest => do
      let ob ← en.obj
      if Rect.equal ob.bounds r then some true else findLeafScanMatch r rest

/-- `Rtree.findLeaf` from hrtree.go, lines 656-679: descend by MBR
containment into every candidate subtree; accept a leaf only if it holds
an entry whose rectangle `equal`s the query bounds. `Sum.inl` frames visit
a node, `Sum.inr` frames scan an entry list; the structural fuel bounds
the frame depth. -/
def findLeafF (t : Rtree) (obj : Obj) : Nat → Sum NodeId (List Entry) → Option (Option NodeId)
  | 0, _ => none
  | fuel + 1, Sum.inl id => do
      let n ← getN t id
      if n.leaf then some (some id) else findLeafF t obj fuel (Sum.inr n.entries)
  | _fuel + 1, Sum.inr [] => some none
  | fuel + 1, Sum.inr (e :: rest) => do
      let ptr ← entryGetMBR t e
      let mbr ← ptr
      if Rect.contains mbr obj.bounds then do
        let cid ← e.node
        match ← findLeafF t obj fuel (Sum.inl cid) with
        | none => findLeafF t obj fuel (Sum.inr rest)
        | some leafId => do
            let ln ← getN t leafId
            if ← findLeafScanMatch obj.bounds ln.entries then some (some leafId)
            else findLeafF t obj fuel (Sum.inr rest)
      else findLeafF t obj fuel (Sum.inr rest)

/-- `Rtree.findLeaf` entry point. -/
def findLeaf (t : Rtree) (obj : Obj) : Option (Option NodeId) :=
  findLeafF t obj (treeFuel t) (Sum.inl t.root)

/-- `Rtree.Delete` from hrtree.go, lines 630-654: locate the leaf, remove
the matching entry, decrement `size`, handle underflow when the leaf drops
below `MinChildren`, then adjust the tree upward. -/
def Delete (t : Rtree) (obj : Obj) : Option (Bool × Rtree) := do
  match ← findLeaf t obj with
  | none => some (false, t)
  | some leafId => do
      let (ok, t) ← removeLeaf t leafId obj
      if ok then do
        let t := { t with size := t.size - 1 }
        let leafNode ← getN t leafId
        let (dl, siblings, t) ←
          if leafNode.entries.length < t.MinChildren then handleUnderflow t leafId
          else some ((none : Option NodeId), ([] : List NodeId), t)
        let t ← adjustRemoveLoop t (t.nodes.length + 2) leafId dl siblings []
        some (true, t)
      else some (false, t)

/-- `Rtree.searchIntersect` from hrtree.go, lines 688-701: depth-first
visit of every entry whose MBR intersects the query; leaf entries append
their (possibly nil) object to the running result slice. -/
def searchF (t : Rtree) (bb : Rect) :
    Nat → Sum NodeId (Bool × List Entry) → List (Option Obj) → Option (List (Option Obj))
  | 0, _, _ => none
  | fuel + 1, Sum.inl id, results => do
      let n ← getN t id
      searchF t bb fuel (Sum.inr (n.leaf, n.entries)) results
  | _fuel + 1, Sum.inr (_, []), results => some results
  | fuel + 1, Sum.inr (isLeaf, e :: rest), results => do
      let ptr ← entryGetMBR t e
      let mbr ← ptr
      if intersect mbr bb then
        if isLeaf then searchF t bb fuel (Sum.inr (isLeaf, rest)) (results ++ [e.obj])
        else do
          let cid ← e.node
          let results ← searchF t bb fuel (Sum.inl cid) results
          searchF t bb fuel (Sum.inr (isLeaf, rest)) results
      else searchF t bb fuel (Sum.inr (isLeaf, rest)) results

/-- `Rtree.SearchIntersect` from hrtree.go, lines 683-686. -/
def SearchIntersect (t : Rtree) (bb : Rect) : Option (List (Option Obj)) :=
  searchF t bb (treeFuel t) (Sum.inl t.root) []

/-- Modelled from the spec (section 6): the constructor forwards `bits`
to the external Hilbert oracle (`github.com/jtejido/hilbert`, not part of
this repository, invoked as `h.New(uint32(Bits), 2)`), and invalid Hilbert
resolutions are reported as construction errors; the spec names 32 as the
typical valid value and defines the encoder over `{0..2^b-1}^D`, so we
model validity as a positive resolution after Go's wrapping `uint32`
conversion. -/
def hilbertNew (bits : Int) : Option Unit :=
  if 0 < bits % 4294967296 then some () else none

/-- `NewTree` from hrtree.go, lines 28-51: build the Hilbert oracle (an
error there aborts construction), replace negative bounds by the
defaults, increment `MaxChildren` once when it is below `MinChildren`,
then create a leaf root. -/
def NewTree (MinChildren MaxChildren Bits : Int) : Option Rtree := do
  let _ ← hilbertNew Bits
  let m := if MinChildren < 0 then (DefaultMinNodeEntries : Int) else MinChildren
  let mx := if MaxChildren < 0 then (DefaultMaxNodeEntries : Int) else MaxChildren
  let mx := if mx < m then mx + 1 else mx
  some { MinChildren := m.toNat, MaxChildren := mx.toNat, Bits := Bits,
         root := 0, size := 0,
         nodes := [{ newNode m.toNat mx.toNat with leaf := true }] }

/-- The distance computation of `sortEntries` from hrtree.go, lines
727-736: pair every entry with `p.minDist(entries[i].bb)`; note the source
reads the raw `bb` field (nil for internal entries, which panics), not
`getMBR`. -/
def sortEntriesDists (p : Point) (es : List Entry) : Option (List (Entry × ℚ)) :=
  es.mapM (fun e => do
    let r ← e.bb
    some (e, p.minDist r))

/-- One insertion step of the distance sort. -/
def insertByDist (x : Entry × ℚ) : List (Entry × ℚ) → List (Entry × ℚ)
  | [] => [x]
  | y :: rest => if x.2 < y.2 then x :: y :: rest else y :: insertByDist x rest

/-- The `sort.Sort(entrySlice{...})` of `sortEntries`: sort ascending by
distance. Go's sort is unstable and leaves the order of equal-distance
entries unspecified; this embedding fixes one order realising the same
`Less` relation. -/
def sortPairs (l : List (Entry × ℚ)) : List (Entry × ℚ) := l.foldr insertByDist []

/-- `pruneEntries` from hrtree.go, lines 738-754: drop entries whose
`minDist` exceeds the least `minMaxDist` (again reading the raw `bb`). -/
def pruneEntriesModel (p : Point) (pairs : List (Entry × ℚ)) : Option (List (Entry × ℚ)) := do
  let mms ← pairs.mapM (fun x => do
    let r ← x.1.bb
    some (p.minMaxDist r))
  let minMinMax := mms.foldl (fun acc d => if d < acc then d else acc) maxFloat
  some (pairs.filter (fun x => decide (x.2 ≤ minMinMax)))

/-- Work frames of the nearest-neighbour traversal: visiting a node,
scanning a leaf's entries, or walking the pruned branch list. -/
inductive NNFrame where
  | node (id : NodeId)
  | leafStep (es : List Entry)
  | branchStep (bs : List (Entry × ℚ))

/-- `Rtree.nearestNeighbor` from hrtree.go, lines 756-778, with `math.Sqrt`
passed in as an opaque function argument (every theorem holds for any
interpretation, in particular the real square root). -/
def nearestF (t : Rtree) (sqrtF : ℚ → ℚ) (p : Point) :
    Nat → NNFrame → ℚ → Option Obj → Option (Option Obj × ℚ)
  | 0, _, _, _ => none
  | fuel + 1, NNFrame.node id, d, nearest => do
      let n ← getN t id
      if n.leaf then nearestF t sqrtF p fuel (NNFrame.leafStep n.entries) d nearest
      else do
        let pairs ← sortEntriesDists p n.entries
        let sorted := sortPairs pairs
        let pruned ← pruneEntriesModel p sorted
        nearestF t sqrtF p fuel (NNFrame.branchStep pruned) d nearest
  | _fuel + 1, NNFrame.leafStep [], d, nearest => some (nearest, d)
  | fuel + 1, NNFrame.leafStep (e :: rest), d, nearest => do
      let r ← e.bb
      let dist := sqrtF (p.minDist r)
      if dist < d then nearestF t sqrtF p fuel (NNFrame.leafStep rest) dist e.obj
      else nearestF t sqrtF p fuel (NNFrame.leafStep rest) d nearest
  | _fuel + 1, NNFrame.branchStep [], d, nearest => some (nearest, d)
  | fuel + 1, NNFrame.branchStep (b :: rest), d, nearest => do
      let cid ← b.1.node
      let (subNearest, dist) ← nearestF t sqrtF p fuel (NNFrame.node cid) d nearest
      if dist < d then nearestF t sqrtF p fuel (NNFrame.branchStep rest) dist subNearest
      else nearestF t sqrtF p fuel (NNFrame.branchStep rest) d nearest

/-- `Rtree.NearestNeighbor` from hrtree.go, lines 703-707: run the
branch-and-bound from the root with bound `math.MaxFloat64` and nil
current best, return the object component. -/
def NearestNeighbor (sqrtF : ℚ → ℚ) (t : Rtree) (p : Point) : Option (Option Obj) := do
  let (obj, _) ← nearestF t sqrtF p (treeFuel t) (NNFrame.node t.root) maxFloat none
  some obj

/-- The node currently behind the tree's root pointer. -/
def rootNode (t : Rtree) : GNode := t.nodes.getD t.root (newNode 0 0)

/-- Modelled from the spec (section 6, Hilbert oracle contract): the
oracle is an injected deterministic pure function `[u64; 2] → ℕ`; the
contract requires determinism and a totally ordered result only, so the
concrete scenarios below inject this simple deterministic encoder. -/
def encodeLinear (x y : Nat) : Nat := 10 * x + y

/-- A concrete rectangle with centre `(2,2)`. -/
def rectR : Rect := ⟨⟨1, 1⟩, ⟨3, 3⟩⟩

/-- First object stored with bounds `rectR` (identity 1). -/
def objA : Obj := ⟨1, rectR, ⟨2, 2⟩⟩

/-- Second, distinct object with the same bounds `rectR` (identity 2). -/
def objB : Obj := ⟨2, rectR, ⟨2, 2⟩⟩

/-- Scenario: a `NewTree(1,4,32)` tree holding `objA` then `objB`
(equal rectangles, so equal Hilbert values; `objB` sits at index 1). -/
def c2t2 : Option Rtree := do
  let t ← NewTree 1 4 32
  let t ← Insert encodeLinear t objA
  Insert encodeLinear t objB

/-- Point object at `(1,1)` (Hilbert value 11 under `encodeLinear`). -/
def o1 : Obj := ⟨1, ⟨⟨1, 1⟩, ⟨1, 1⟩⟩, ⟨1, 1⟩⟩

/-- Point object at `(5,5)` (Hilbert value 55 under `encodeLinear`). -/
def o2 : Obj := ⟨2, ⟨⟨5, 5⟩, ⟨5, 5⟩⟩, ⟨5, 5⟩⟩

/-- Point object at `(7,7)` (Hilbert value 77 under `encodeLinear`). -/
def o3 : Obj := ⟨3, ⟨⟨7, 7⟩, ⟨7, 7⟩⟩, ⟨7, 7⟩⟩

/-- Scenario: `NewTree(1,2,32)` and three inserts with ascending Hilbert
values 11, 55, 77; the third insert overflows the root leaf and splits,
producing an internal root with two leaf children. -/
def c4t : Option Rtree := do
  let t ← NewTree 1 2 32
  let t ← Insert encodeLinear t o1
  let t ← Insert encodeLinear t o2
  Insert encodeLinear t o3

/-- Scenario: `NewTree(1,4,32)`, insert objects with Hilbert values 11 and
55 into the root leaf, then `Delete` the value-55 object: a public
mutation after which the root's cached `lhv` is stale. -/
def c3t : Option Rtree := do
  let t ← NewTree 1 4 32
  let t ← Insert encodeLinear t o1
  let t ← Insert encodeLinear t o2
  let (_, t) ← Delete t o2
  some t

/-- The pre-existing object of the round-trip scenario: bounds
`(1,1)-(9,9)`, centre `(5,5)`, identity 11. -/
def objB8 : Obj := ⟨11, ⟨⟨1, 1⟩, ⟨9, 9⟩⟩, ⟨5, 5⟩⟩

/-- The object inserted and deleted by the round-trip pair: bounds
`(1,1)-(3,3)` (sharing the lower corners with `objB8`, which the buggy
`equal` treats as equal), centre `(2, 2)`, identity 12. -/
def objC8 : Obj := ⟨12, ⟨⟨1, 1⟩, ⟨3, 3⟩⟩, ⟨2, 2⟩⟩

/-- The query rectangle of the round-trip scenario. -/
def q8 : Rect := ⟨⟨5, 5⟩, ⟨6, 6⟩⟩

/-- Round-trip scenario, before state: `NewTree(1,4,32)` holding `objB8`. -/
def c8t1 : Option Rtree := do
  let t ← NewTree 1 4 32
  Insert encodeLinear t objB8

/-- Round-trip scenario, after the `Insert objC8; Delete objC8` pair. -/
def c8t3 : Option (Bool × Rtree) := do
  let t ← c8t1
  let t ← Insert encodeLinear t objC8
  Delete t objC8

/-- A concrete leaf node (capacity bounds `min = 1`, `max = 2`, one stored
entry) used to evaluate `isUnderflow` at its failing input. -/
def c6node : GNode :=
  { min := 1, max := 2, parent := none, left := none, right := none,
    leaf := true, entries := [⟨some rectR, none, some objA, 22, true⟩],
    lhv := 22, bb := some rectR }

/-- Whether a leaf entry's stored rectangle `equal`s the query rectangle
(the match predicate of `removeLeaf` and `findLeaf`); an entry without an
object never matches. -/
def matchesB (r : Rect) (e : Entry) : Bool :=
  match e.obj with
  | some ob => Rect.equal ob.bounds r
  | none => false

/-- The value computed by the index scan of `removeLeaf` (specification
side, total): fold over the entries, overwriting the accumulator at every
match. -/
def removeIndVal (r : Rect) : List Entry → Int → Int → Int
  | [], _, ind => ind
  | en :: rest, i, ind => removeIndVal r rest (i + 1) (if matchesB r en then i else ind)

/-- The leaf entry holding `objA`. -/
def entryA : Entry := ⟨some rectR, none, some objA, 22, true⟩

/-- The leaf entry holding `objB` (same rectangle as `entryA`). -/
def entryB : Entry := ⟨some rectR, none, some objB, 22, true⟩

/-- Witness entry with Hilbert value 10. -/
def wE1 : Entry := ⟨none, none, none, 10, true⟩

/-- Witness entry with Hilbert value 30. -/
def wE2 : Entry := ⟨none, none, none, 30, true⟩

/-- Witness entry with Hilbert value 30 (an equal-key newcomer). -/
def wE3 : Entry := ⟨none, none, none, 30, false⟩

/-- The empty tree produced by `NewTree(-1, -1, 32)` (defaults 20/1000):
a leaf root with zero entries. -/
def c10tree : Rtree :=
  { MinChildren := 20, MaxChildren := 1000, Bits := 32, root := 0, size := 0,
    nodes := [{ newNode 20 1000 with leaf := true }] }

/-! Theorems settling the claims, together with their helper lemmas. -/

/-- C1 counterexample: with valid bits (32) and `MaxChildren = 3` below
`MinChildren = 5` (no negative value, so normalisation changes nothing),
`NewTree` does NOT return an error: it succeeds and returns a tree with
`MaxChildren` incremented to 4 (still below `MinChildren`), refuting the
claim that construction reports an error whenever `max < min`. -/
theorem c1_newTree_no_error_when_max_lt_min :
    (NewTree 5 3 32).isSome = true ∧
    (NewTree 5 3 32).map (fun t => (t.MinChildren, t.MaxChildren)) = some (5, 4) :=
  ⟨rfl, rfl⟩

/-- C1 amended: when the Hilbert oracle accepts `bits` and the normalised
maximum is below the normalised minimum, `NewTree` succeeds (no error) and
returns the tree with `MaxChildren` incremented by exactly one. -/
theorem c1_amended_newTree_increments_max (minC maxC bits : Int)
    (hb : hilbertNew bits = some ())
    (hlt : (if maxC < 0 then (DefaultMaxNodeEntries : Int) else maxC) <
           (if minC < 0 then (DefaultMinNodeEntries : Int) else minC)) :
    NewTree minC maxC bits =
      some { MinChildren := (if minC < 0 then (DefaultMinNodeEntries : Int) else minC).toNat,
             MaxChildren := ((if maxC < 0 then (DefaultMaxNodeEntries : Int) else maxC) + 1).toNat,
             Bits := bits, root := 0, size := 0,
             nodes := [{ newNode (if minC < 0 then (DefaultMinNodeEntries : Int) else minC).toNat
                           ((if maxC < 0 then (DefaultMaxNodeEntries : Int) else maxC) + 1).toNat
                         with leaf := true }] } := by
  simp only [NewTree, hb, Option.bind_eq_bind, Option.some_bind, if_pos hlt]

/-- C1 amended, witness at `NewTree(5, 3, 32)`. -/
theorem c1_amended_newTree_increments_max_witness :
    hilbertNew 32 = some () ∧
    ((if (3 : Int) < 0 then (DefaultMaxNodeEntries : Int) else 3) <
     (if (5 : Int) < 0 then (DefaultMinNodeEntries : Int) else 5)) ∧
    NewTree 5 3 32 =
      some { MinChildren := 5, MaxChildren := 4, Bits := 32, root := 0, size := 0,
             nodes := [{ newNode 5 4 with leaf := true }] } :=
  ⟨rfl, by decide, by
    simpa using c1_amended_newTree_increments_max 5 3 32 rfl (by decide)⟩

/-- C2 counterexample: in a `NewTree(1,4,32)` tree whose root leaf holds
the distinct objects `objA` (index 0) and `objB` (index 1) with EQUAL
rectangles, `Delete objB` removes the LAST matching entry: the surviving
entry is `objA` (so the index-1 entry was removed), while the claim
("removes the first, lowest-index matching entry") demands the survivor
be `objB`. Size drops by one and `true` is returned as claimed. -/
theorem c2_delete_removes_last_match :
    (c2t2.map (fun t => (rootNode t).entries.map Entry.obj)) =
      some [some objA, some objB] ∧
    (c2t2.bind (fun t => Delete t objB)).map
        (fun r => (r.1, r.2.size, (rootNode r.2).entries.map Entry.obj)) =
      some (true, 1, [some objA]) ∧
    objA ≠ objB :=
  ⟨rfl, rfl, by decide⟩

/-- C3, evaluated at a failing input reached by public mutations only:
after `NewTree(1,4,32)`, two inserts (Hilbert values 11, 55) and a
`Delete` of the value-55 object, the root's cached `lhv` is still 55
although its single remaining entry has LHV 11 — `adjustLHV` only raises
the cache (and reads `h = 0` for internal entries), it never recomputes
it from the entries as the claim states. -/
theorem c3_lhv_cache_stale_after_delete :
    (c3t.map (fun t => ((rootNode t).lhv, (rootNode t).entries.map Entry.h))) =
      some (55, [11]) ∧
    (55 : Nat) ≠ 11 :=
  ⟨rfl, by decide⟩

/-- C4, evaluated at a failing input reached by public mutations only:
after `NewTree(1,2,32)` and three inserts with Hilbert values 11 < 55 < 77
the root splits; the new internal root's entries carry sort key `h = 0`
(never the child's LHV), and their children's LHVs read `[77, 55]` — not
ascending, refuting the sortedness claim for internal nodes. -/
theorem c4_internal_entries_not_sorted_by_child_lhv :
    (c4t.bind (fun t => (rootNode t).entries.mapM (fun e => do
        let cid ← e.node
        let c ← getN t cid
        some (e.h, c.lhv)))) = some [(0, 77), (0, 55)] ∧
    ¬ List.Pairwise (fun a b => a ≤ b) [(77 : Nat), 55] :=
  ⟨rfl, by decide⟩

/-- C5, evaluated at a failing input: the rectangles `(0,0)-(1,1)` and
`(0,0)-(2,2)` differ in their upper corners, yet `equal` returns `true`,
because the source returns `false` only when BOTH the lower and upper
coordinates differ on some axis (`&&` in place of the intended `||`). -/
theorem c5_equal_spurious_match :
    Rect.equal ⟨⟨0, 0⟩, ⟨1, 1⟩⟩ ⟨⟨0, 0⟩, ⟨2, 2⟩⟩ = true ∧
    ((⟨⟨0, 0⟩, ⟨1, 1⟩⟩ : Rect).upper ≠ (⟨⟨0, 0⟩, ⟨2, 2⟩⟩ : Rect).upper) :=
  ⟨rfl, by decide⟩

/-- C6, evaluated at a failing input: a leaf node with `min = 1`, `max = 2`
holding one entry is NOT below its minimum (`1 < 1` is false), yet
`isUnderflow` returns `true` because the source compares the entry count
against `max` instead of `min`. -/
theorem c6_isUnderflow_compares_max :
    isUnderflow c6node = true ∧ ¬(c6node.entries.length < c6node.min) :=
  ⟨rfl, by decide⟩

/-- C7: `intersect` returns `true` exactly when on every axis the first
rectangle's lower bound is at most the second's upper bound and its upper
bound is at least the second's lower bound; in particular rectangles that
merely touch (here sharing the single corner `(1,1)`) intersect. -/
theorem c7_intersect_iff :
    (∀ a b : Rect,
      intersect a b = true ↔
        (∀ i : Fin 2, a.lower.nth i ≤ b.upper.nth i ∧ a.upper.nth i ≥ b.lower.nth i)) ∧
    intersect ⟨⟨0, 0⟩, ⟨1, 1⟩⟩ ⟨⟨1, 1⟩, ⟨2, 2⟩⟩ = true := by
  constructor
  · intro a b
    simp only [intersect, Bool.and_eq_true, decide_eq_true_eq, Fin.forall_fin_two,
      Point.nth, ge_iff_le]
  · rfl

/-- Truth of an upward-closed (below `n`) Boolean predicate propagates
over a distance. -/
theorem up_chain_step (f : Nat → Bool) (n : Nat)
    (hup : ∀ k, k + 1 < n → f k = true → f (k + 1) = true) :
    ∀ d a, a + d < n → f a = true → f (a + d) = true := by
  intro d
  induction d with
  | zero => intro a _ hfa; exact hfa
  | succ d ih =>
      intro a hlt hfa
      have h1 : f (a + d) = true := ih a (by omega) hfa
      have h2 : f (a + d + 1) = true := hup (a + d) (by omega) h1
      exact h2

/-- Truth of an upward-closed (below `n`) Boolean predicate propagates
from `a` up to any `b < n`. -/
theorem up_chain (f : Nat → Bool) (n : Nat)
    (hup : ∀ k, k + 1 < n → f k = true → f (k + 1) = true)
    (a b : Nat) (hab : a ≤ b) (hbn : b < n) (hfa : f a = true) : f b = true := by
  obtain ⟨d, rfl⟩ : ∃ d, b = a + d := ⟨b - a, by omega⟩
  exact up_chain_step f n hup d a hbn hfa

/-- Specification of the `sort.Search` loop: for an upward-closed
predicate and enough countdown, the result `r` lies in `[i, j]`, `f` is
false on `[i, r)` and true on `[r, j)`. -/
theorem searchLoop_spec (f : Nat → Bool) (n : Nat)
    (hup : ∀ k, k + 1 < n → f k = true → f (k + 1) = true) :
    ∀ cd i j, i ≤ j → j ≤ n → j - i < cd →
      i ≤ searchLoop f i j cd ∧ searchLoop f i j cd ≤ j ∧
      (∀ k, i ≤ k → k < searchLoop f i j cd → f k = false) ∧
      (∀ k, searchLoop f i j cd ≤ k → k < j → f k = true) := by
  intro cd
  induction cd with
  | zero => intro i j _ _ h; omega
  | succ cd ih =>
      intro i j hij hjn hlt
      by_cases hij2 : i < j
      · have hmlow : i ≤ (i + j) / 2 := by omega
        have hmhigh : (i + j) / 2 < j := by omega
        cases hfm : f ((i + j) / 2) with
        | true =>
            have hrec := ih i ((i + j) / 2) hmlow (by omega) (by omega)
            obtain ⟨h1, h2, h3, h4⟩ := hrec
            have hres : searchLoop f i j (cd + 1) = searchLoop f i ((i + j) / 2) cd := by
              rw [searchLoop, if_pos hij2, hfm]
              simp
            rw [hres]
            refine ⟨h1, by omega, h3, ?_⟩
            intro k hk1 hk2
            by_cases hkm : k < (i + j) / 2
            · exact h4 k hk1 hkm
            · exact up_chain f n hup ((i + j) / 2) k (by omega) (by omega) hfm
        | false =>
            have hrec := ih ((i + j) / 2 + 1) j (by omega) hjn (by omega)
            obtain ⟨h1, h2, h3, h4⟩ := hrec
            have hres : searchLoop f i j (cd + 1) = searchLoop f ((i + j) / 2 + 1) j cd := by
              rw [searchLoop, if_pos hij2, hfm]
              simp
            rw [hres]
            refine ⟨by omega, h2, ?_, h4⟩
            intro k hk1 hk2
            by_cases hkm : (i + j) / 2 + 1 ≤ k
            · exact h3 k hkm hk2
            · cases hfk : f k with
              | false => rfl
              | true =>
                  have : f ((i + j) / 2) = true :=
                    up_chain f n hup k ((i + j) / 2) (by omega) (by omega) hfk
                  rw [this] at hfm
                  exact absurd hfm (by simp)
      · have hres : searchLoop f i j (cd + 1) = i := by
          rw [searchLoop, if_neg hij2]
        rw [hres]
        refine ⟨le_rfl, hij, ?_, ?_⟩
        · intro k h1 h2; omega
        · intro k h1 h2; omega

/-- Specification of `sort.Search(n, f)` for an upward-closed predicate:
the result is the least index at which `f` holds (or `n`). -/
theorem sortSearch_spec (f : Nat → Bool) (n : Nat)
    (hup : ∀ k, k + 1 < n → f k = true → f (k + 1) = true) :
    sortSearch n f ≤ n ∧
    (∀ k, k < sortSearch n f → f k = false) ∧
    (∀ k, sortSearch n f ≤ k → k < n → f k = true) := by
  have h := searchLoop_spec f n hup (n + 1) 0 n (by omega) le_rfl (by omega)
  exact ⟨h.2.1, fun k hk => h.2.2.1 k (by omega) hk, h.2.2.2⟩

/-- In a list sorted by `h`, the key read through `getD` is monotone in
the index (for indices below the length). -/
theorem sorted_getD_mono (l : List Entry)
    (hs : List.Pairwise (fun a b => a.h ≤ b.h) l)
    (a b : Nat) (hab : a ≤ b) (hb : b < l.length) :
    (l.getD a default).h ≤ (l.getD b default).h := by
  rcases Nat.eq_or_lt_of_le hab with rfl | hlt
  · exact le_rfl
  · rw [List.getD_eq_getElem l default (by omega), List.getD_eq_getElem l default hb]
    exact List.pairwise_iff_getElem.mp hs a b (by omega) hb hlt

/-- The insertion predicate `fun i => entries[i].h > el.h` is upward
closed below the length of a sorted list. -/
theorem insert_pred_up (l : List Entry) (el : Entry)
    (hs : List.Pairwise (fun a b => a.h ≤ b.h) l) :
    ∀ k, k + 1 < l.length →
      (decide (el.h < (l.getD k default).h)) = true →
      (decide (el.h < (l.getD (k + 1) default).h)) = true := by
  intro k hk h
  rw [decide_eq_true_eq] at h ⊢
  exact lt_of_lt_of_le h (sorted_getD_mono l hs k (k + 1) (by omega) hk)

/-- C9: on a list sorted non-decreasingly by `h`, `insert(e)` returns the
first index whose existing key is strictly greater than `e.h` (so all
earlier keys are `≤ e.h` and the newcomer lands after equal keys), the
new list is the old one with `e` spliced in at that index (later entries
shifted right), its length grows by one, and it is again sorted. -/
theorem c9_listInsert_sorted_spec (l : List Entry) (el : Entry)
    (hs : List.Pairwise (fun a b => a.h ≤ b.h) l) :
    (listInsert l el).2 ≤ l.length ∧
    (∀ k, k < (listInsert l el).2 → (l.getD k default).h ≤ el.h) ∧
    ((listInsert l el).2 < l.length → el.h < (l.getD (listInsert l el).2 default).h) ∧
    (listInsert l el).1 =
      l.take (listInsert l el).2 ++ el :: l.drop (listInsert l el).2 ∧
    (listInsert l el).1.length = l.length + 1 ∧
    List.Pairwise (fun a b => a.h ≤ b.h) (listInsert l el).1 := by
  have hspec := sortSearch_spec (fun i => decide (el.h < (l.getD i default).h)) l.length
    (insert_pred_up l el hs)
  obtain ⟨hle, hfalse, htrue⟩ := hspec
  have hidx : (listInsert l el).2 =
      sortSearch l.length (fun i => decide (el.h < (l.getD i default).h)) := rfl
  have hlow : ∀ k, k < (listInsert l el).2 → (l.getD k default).h ≤ el.h := by
    intro k hk
    have := hfalse k (by rw [hidx] at hk; exact hk)
    rw [decide_eq_false_iff_not] at this
    omega
  have hhigh : (listInsert l el).2 < l.length →
      el.h < (l.getD (listInsert l el).2 default).h := by
    intro hlt
    have := htrue (listInsert l el).2 (by rw [hidx]) (by rw [hidx] at hlt; exact hlt)
    rwa [decide_eq_true_eq] at this
  have hidxle : (listInsert l el).2 ≤ l.length := by rw [hidx]; exact hle
  refine ⟨hidxle, hlow, hhigh, rfl, ?_, ?_⟩
  · simp only [listInsert, List.length_append, List.length_take, List.length_cons,
      List.length_drop]
    omega
  · have hstruct : (listInsert l el).1 =
        l.take (listInsert l el).2 ++ el :: l.drop (listInsert l el).2 := rfl
    rw [hstruct]
    set idx := (listInsert l el).2 with hidxdef
    rw [List.pairwise_append]
    refine ⟨?_, ?_, ?_⟩
    · rw [List.pairwise_iff_getElem]
      intro a b ha hb hab
      rw [List.getElem_take l, List.getElem_take l]
      have hblen : b < l.length := by
        have := List.length_take idx l ▸ hb
        simp [List.length_take] at hb
        omega
      exact List.pairwise_iff_getElem.mp hs a b (by omega) hblen hab
    · rw [List.pairwise_cons]
      constructor
      · intro b hbmem
        obtain ⟨j, hj, rfl⟩ := List.mem_iff_getElem.mp hbmem
        rw [List.getElem_drop l]
        have hjlen : idx + j < l.length := by
          simp [List.length_drop] at hj
          omega
        have h1 : el.h < (l.getD idx default).h := hhigh (by omega)
        have h2 : (l.getD idx default).h ≤ (l.getD (idx + j) default).h :=
          sorted_getD_mono l hs idx (idx + j) (by omega) hjlen
        rw [List.getD_eq_getElem l default hjlen] at h2
        have := lt_of_lt_of_le h1 h2
        omega
      · rw [List.pairwise_iff_getElem]
        intro a b ha hb hab
        rw [List.getElem_drop l, List.getElem_drop l]
        have hblen : idx + b < l.length := by
          simp [List.length_drop] at hb
          omega
        exact List.pairwise_iff_getElem.mp hs (idx + a) (idx + b) (by omega) hblen
          (by omega)
    · intro a hamem b hbmem
      obtain ⟨i, hi, rfl⟩ := List.mem_iff_getElem.mp hamem
      have hii : i < idx ∧ i < l.length := by
        simp [List.length_take] at hi
        omega
      rw [List.getElem_take l]
      rcases List.mem_cons.mp hbmem with rfl | hbdrop
      · have := hlow i hii.1
        rw [List.getD_eq_getElem l default hii.2] at this
        exact this
      · obtain ⟨j, hj, rfl⟩ := List.mem_iff_getElem.mp hbdrop
        rw [List.getElem_drop l]
        have hjlen : idx + j < l.length := by
          simp [List.length_drop] at hj
          omega
        exact List.pairwise_iff_getElem.mp hs i (idx + j) hii.2 hjlen (by omega)

/-- C9 witness: inserting an entry with Hilbert value 30 into the sorted
list `[wE1 (h=10), wE2 (h=30)]` lands at index 2, AFTER the equal-keyed
`wE2`, and the result is sorted of length 3. -/
theorem c9_listInsert_sorted_spec_witness :
    List.Pairwise (fun a b => a.h ≤ b.h) [wE1, wE2] ∧
    (listInsert [wE1, wE2] wE3).2 = 2 ∧
    (listInsert [wE1, wE2] wE3).1 = [wE1, wE2, wE3] ∧
    List.Pairwise (fun a b => a.h ≤ b.h) (listInsert [wE1, wE2] wE3).1 :=
  ⟨by decide, rfl, rfl,
    (c9_listInsert_sorted_spec [wE1, wE2] wE3 (by decide)).2.2.2.2.2⟩

/-- When every entry carries an object, the (possibly panicking) index
scan of `removeLeaf` succeeds and computes `removeIndVal`. -/
theorem removeIndLoop_eq_val (r : Rect) :
    ∀ (es : List Entry), (∀ e ∈ es, (e.obj).isSome = true) →
      ∀ i ind, removeIndLoop r es i ind = some (removeIndVal r es i ind) := by
  intro es
  induction es with
  | nil => intro _ i ind; rfl
  | cons e rest ih =>
      intro h i ind
      have he : (e.obj).isSome = true := h e (List.mem_cons_self e rest)
      obtain ⟨ob, hob⟩ := Option.isSome_iff_exists.mp he
      have htail := ih (fun x hx => h x (List.mem_cons_of_mem e hx))
      simp only [removeIndLoop, removeIndVal, hob, Option.some_bind, matchesB]
      exact htail (i + 1) (if Rect.equal ob.bounds r = true then i else ind)

/-- If nothing matches, the scan leaves the accumulator untouched. -/
theorem removeIndVal_no_match (r : Rect) :
    ∀ (es : List Entry), (∀ e ∈ es, matchesB r e = false) →
      ∀ i ind, removeIndVal r es i ind = ind := by
  intro es
  induction es with
  | nil => intro _ i ind; rfl
  | cons e rest ih =>
      intro h i ind
      have he : matchesB r e = false := h e (List.mem_cons_self e rest)
      simp only [removeIndVal, he, Bool.false_eq_true, if_false]
      exact ih (fun x hx => h x (List.mem_cons_of_mem e hx)) (i + 1) ind

/-- If index `i0` matches and nothing after it does, the scan ends at
`i + i0` (the base offset plus the LAST matching index). -/
theorem removeIndVal_last_match (r : Rect) :
    ∀ (es : List Entry) (i0 : Nat), i0 < es.length →
      matchesB r (es.getD i0 default) = true →
      (∀ k, i0 < k → k < es.length → matchesB r (es.getD k default) = false) →
      ∀ (i ind : Int), removeIndVal r es i ind = i + i0 := by
  intro es
  induction es with
  | nil => intro i0 h; simp at h
  | cons e rest ih =>
      intro i0 h1 h2 h3 i ind
      cases i0 with
      | zero =>
          have he : matchesB r e = true := by simpa using h2
          have hrest : ∀ x ∈ rest, matchesB r x = false := by
            intro x hx
            obtain ⟨j, hj, rfl⟩ := List.mem_iff_getElem.mp hx
            have := h3 (j + 1) (by omega) (by simp; omega)
            rw [List.getD_cons_succ, List.getD_eq_getElem rest default hj] at this
            exact this
          simp only [removeIndVal, he, if_true]
          rw [removeIndVal_no_match r rest hrest (i + 1) i]
          simp
      | succ k =>
          have hk : k < rest.length := by simp at h1; omega
          have hm : matchesB r (rest.getD k default) = true := by
            rw [List.getD_cons_succ] at h2; exact h2
          have hr : ∀ j, k < j → j < rest.length → matchesB r (rest.getD j default) = false := by
            intro j hj1 hj2
            have := h3 (j + 1) (by omega) (by simp; omega)
            rw [List.getD_cons_succ] at this
            exact this
          simp only [removeIndVal]
          rw [ih k hk hm hr (i + 1) (if matchesB r e = true then i else ind)]
          push_cast
          ring

/-- C2 amended: `removeLeaf` (whose scan `Delete` applies to the leaf
located by `findLeaf`) removes the LAST (highest-index) entry whose
stored rectangle `equal`s the query rectangle and reports `true`;
when no entry matches it reports `false` and leaves the entries
unchanged. -/
theorem c2_amended_removeLeaf_removes_last_match (es : List Entry) (r : Rect)
    (hobj : ∀ e ∈ es, (e.obj).isSome = true) :
    ((∀ e ∈ es, matchesB r e = false) → removeLeafCore es r = some (false, es)) ∧
    (∀ i, i < es.length → matchesB r (es.getD i default) = true →
      (∀ k, i < k → k < es.length → matchesB r (es.getD k default) = false) →
      removeLeafCore es r = some (true, es.eraseIdx i)) := by
  constructor
  · intro hnone
    unfold removeLeafCore
    rw [removeIndLoop_eq_val r es hobj 0 (-1)]
    rw [removeIndVal_no_match r es hnone 0 (-1)]
    simp
  · intro i hi hm hrest
    unfold removeLeafCore
    rw [removeIndLoop_eq_val r es hobj 0 (-1)]
    rw [removeIndVal_last_match r es i hi hm hrest 0 (-1)]
    simp

/-- C2 amended, witness: in the two-entry leaf `[entryA, entryB]` whose
rectangles both equal `rectR`, the removal hits index 1 (the LAST match)
and the survivor is `entryA`. -/
theorem c2_amended_removeLeaf_removes_last_match_witness :
    (∀ e ∈ [entryA, entryB], (e.obj).isSome = true) ∧
    matchesB rectR ([entryA, entryB].getD 1 default) = true ∧
    removeLeafCore [entryA, entryB] rectR = some (true, [entryA]) := by
  refine ⟨by decide, by decide, ?_⟩
  have h := (c2_amended_removeLeaf_removes_last_match [entryA, entryB] rectR
    (by decide)).2 1 (by simp) (by decide)
    (by intro k hk1 hk2; simp only [List.length_cons, List.length_nil] at hk2; omega)
  exact h

/-- C10: `NearestNeighbor(p)` on a tree whose root is a leaf with zero
entries (the state of a tree on which no insert has ever succeeded)
returns nil, for every query point and any interpretation of `math.Sqrt`. -/
theorem c10_nearest_neighbor_empty (sqrtF : ℚ → ℚ) (p : Point) (t : Rtree) (n : GNode)
    (hroot : getN t t.root = some n) (hleaf : n.leaf = true) (hempty : n.entries = []) :
    NearestNeighbor sqrtF t p = some none := by
  have h4 : 4 ≤ treeFuel t := by
    have h := Nat.mul_le_mul (show 2 ≤ t.nodes.length + 2 by omega)
      (show 2 ≤ totalEntries t + 2 by omega)
    unfold treeFuel
    exact h
  obtain ⟨k, hk⟩ : ∃ k, treeFuel t = k + 2 := ⟨treeFuel t - 2, by omega⟩
  unfold NearestNeighbor
  rw [hk]
  simp [nearestF, hroot, hleaf, hempty]

/-- C10 witness: the tree built by `NewTree(-1, -1, 32)` (defaults) is
exactly `c10tree`, and its nearest-neighbour query returns nil. -/
theorem c10_nearest_neighbor_empty_witness :
    NewTree (-1) (-1) 32 = some c10tree ∧
    NearestNeighbor (fun q => q) c10tree ⟨0, 0⟩ = some none :=
  ⟨rfl, c10_nearest_neighbor_empty (fun q => q) ⟨0, 0⟩ c10tree
    ({ newNode 20 1000 with leaf := true }) rfl rfl rfl⟩

/-- C8, evaluated at a failing input (the Insert/Delete round-trip is not
an identity on search results): start from a `NewTree(1,4,32)` tree
holding only `objB8` with bounds `(1,1)-(9,9)`; `SearchIntersect` of
`(5,5)-(6,6)` returns `objB8`. Insert `objC8` (bounds `(1,1)-(3,3)`,
sharing lower corners with `objB8`, so the buggy `equal` matches both and
the removal takes the LAST match) and then Delete `objC8`: the pair
returns `true` and restores `size = 1`, but the tree now holds `objC8`
instead of `objB8`, and the same query returns the empty multiset. -/
theorem c8_insert_delete_round_trip_changes_search :
    (c8t1.map Rtree.size) = some 1 ∧
    (c8t1.bind (fun t => SearchIntersect t q8)) = some [some objB8] ∧
    (c8t3.map (fun r => (r.1, r.2.size))) = some (true, 1) ∧
    (c8t3.bind (fun r => SearchIntersect r.2 q8)) = some [] :=
  ⟨rfl, rfl, rfl, rfl⟩

end Hrtree
